import Mathlib

/-!
Shallow embedding of the Markov-chain plugin core (concord-consortium/markov-chain-plugin):
the chain builder (`useGraph.updateGraph`), the weighted random-walk generator
(`useGenerator.generate` with `chooseRandomNode` / `chooseRandomEdge`), and the
sequence-group bookkeeping of the playback sequencer in `app.tsx`
(`generateNewSequence` / `finishAnimating`).

Numbers (`value` weights and random draws) are modelled as rationals; JavaScript's
`Math.random()` draws are passed in explicitly as rationals in `[0, 1)`.
-/

namespace MarkovPlugin

/-- Source `type.ts`: `Node = { id: string, label: string, value: number }`. -/
structure Node where
  id : String
  label : String
  value : ℚ
deriving Repr, DecidableEq

/-- Source `type.ts`: `Edge = { from: string, to: string, value: number }`
(`from` is a Lean keyword, so the field is named `from_`). -/
structure Edge where
  from_ : String
  to_ : String
  value : ℚ
deriving Repr, DecidableEq

/-- Source `type.ts`: `GraphData = { nodes: Node[], edges: Edge[] }`. -/
structure GraphData where
  nodes : List Node
  edges : List Edge
deriving Repr, DecidableEq

/-! ## ChainBuilder: `useGraph.updateGraph` (src/hooks/use-graph.ts)

The imperative loop mutates a `nodes` array, an `edges` array and a `prevNode`
variable; we thread them through a fold as an explicit `BuildState`.  `prevNode`
is only ever read through `prevNode.id`, so the state stores that id. -/

/-- The builder's loop state: the arrays under construction plus the id of
`prevNode` (`none` after a separator or at the start). -/
structure BuildState where
  nodes : List Node
  edges : List Edge
  prevNode : Option String
deriving Repr, DecidableEq

/-- Embeds `node.value++` on the node returned by `nodes.find(element => element?.label === value)`:
increment the first node whose label matches. -/
def incFirstNodeByLabel : List Node → String → List Node
  | [], _ => []
  | n :: rest, v =>
      if n.label == v then { n with value := n.value + 1 } :: rest
      else n :: incFirstNodeByLabel rest v

/-- Embeds `edge.value++` on the edge returned by
`edges.find(element => element.from === prevNode?.id && element.to === node?.id)`:
increment the first edge matching the ordered pair. -/
def incFirstEdge : List Edge → String → String → List Edge
  | [], _, _ => []
  | e :: rest, f, t =>
      if e.from_ == f && e.to_ == t then { e with value := e.value + 1 } :: rest
      else e :: incFirstEdge rest f t

/-- One iteration of `updateGraph`'s `values.forEach` body.  A non-empty value finds or
creates (`{id: value, label: value, value: 0}` pushed, then `node.value++`, hence the
fresh node carries value 1) its node, bumps the edge from `prevNode` likewise, and
becomes the new `prevNode`; the empty string only resets `prevNode` to `null`. -/
def updateGraphStep (st : BuildState) (value : String) : BuildState :=
  if value ≠ "" then
    let found := st.nodes.find? (fun element => element.label == value)
    let nodeId : String :=
      match found with
      | some node => node.id
      | none => value
    let nodes1 : List Node :=
      match found with
      | some _ => incFirstNodeByLabel st.nodes value
      | none => st.nodes ++ [{ id := value, label := value, value := 1 }]
    let edges1 : List Edge :=
      match st.prevNode with
      | some prevId =>
          match st.edges.find? (fun element => element.from_ == prevId && element.to_ == nodeId) with
          | some _ => incFirstEdge st.edges prevId nodeId
          | none => st.edges ++ [{ from_ := prevId, to_ := nodeId, value := 1 }]
      | none => st.edges
    { nodes := nodes1, edges := edges1, prevNode := some nodeId }
  else
    { st with prevNode := none }

/-- Source `useGraph.updateGraph(values)`: rebuild the graph from scratch from the observation
list (the source's `if (values.length > 0)` guard is redundant over the fold: folding
the empty list leaves the fresh empty arrays unchanged). -/
def updateGraph (values : List String) : GraphData :=
  let st := values.foldl updateGraphStep { nodes := [], edges := [], prevNode := none }
  { nodes := st.nodes, edges := st.edges }

/-! ## SequenceGenerator: `useGenerator` (src/hooks/use-graph.ts, generator section)

`chooseRandomNode` and `chooseRandomEdge` both run the same cumulative-weight scan
(`tSum += value; return tSum >= chosenSum`) over a list via `Array.find`; `cumFind`
is that scan with the running sum and threshold explicit. -/

/-- The shared `find(i => { tSum += value(i); return tSum >= chosenSum; })` scan. -/
def cumFind (w : α → ℚ) : List α → ℚ → ℚ → Option α
  | [], _, _ => none
  | x :: rest, tSum, chosenSum =>
      let tSum1 := tSum + w x
      if chosenSum ≤ tSum1 then some x else cumFind w rest tSum1 chosenSum

/-- Source `chooseRandomNode`: `chosenSum = Math.random() * sumValues` (the draw `r` is passed
in), then the cumulative scan over all nodes in insertion order. -/
def chooseRandomNode (nodes : List Node) (r : ℚ) : Option Node :=
  let sumValues := (nodes.map Node.value).sum
  let chosenSum := r * sumValues
  cumFind Node.value nodes 0 chosenSum

/-- Embeds `graph.edges.filter(iEdge => iEdge.from === iNode?.id)`. -/
def outgoingEdges (graph : GraphData) (node : Node) : List Edge :=
  graph.edges.filter (fun iEdge => iEdge.from_ == node.id)

/-- Source `chooseRandomEdge(iNode)`: cumulative scan over the node's outgoing edges. -/
def chooseRandomEdge (graph : GraphData) (node : Node) (r : ℚ) : Option Edge :=
  let edges := outgoingEdges graph node
  let sumEdgeValues := (edges.map Edge.value).sum
  let chosenSum := r * sumEdgeValues
  cumFind Edge.value edges 0 chosenSum

/-- The loop's next-node computation: `if (currentEdge?.to) { currentNode =
graph.nodes.find(iNode => iNode?.id === currentEdge.to); } else { currentNode = null; }`.
JavaScript truthiness makes an empty-string `to` fall to the `null` branch. -/
def nextNode (graph : GraphData) (node : Node) (r : ℚ) : Option Node :=
  match chooseRandomEdge graph node r with
  | some currentEdge =>
      if currentEdge.to_ = "" then none
      else graph.nodes.find? (fun iNode => iNode.id == currentEdge.to_)
  | none => none

/-- The walk loop `while (currentNode && generatedResult.length < lengthLimit)`, with
the remaining allowance `lengthLimit - generatedResult.length` as the fuel and one
random draw `draws idx` consumed per `chooseRandomEdge` call.  Each iteration pushes
the current node (the source pushes `currentNode.label`; labels are projected off at
the end in `generate`). -/
def walkLoop (graph : GraphData) (draws : ℕ → ℚ) : ℕ → Option Node → ℕ → List Node
  | _, none, _ => []
  | _, some _, 0 => []
  | idx, some currentNode, rem + 1 =>
      currentNode :: walkLoop graph draws (idx + 1) (nextNode graph currentNode (draws idx)) rem

/-- The visited-node sequence of `useGenerator.generate`.  The walk body is the source's
loop; the initial-state choice takes the caller-supplied `startingNode` into account.
The `use-generator.ts` revision consumed by `app.tsx` (which passes
`{ startingNode, lengthLimit }`) is not among the sources, so that branch is
Modelled from the spec: "if `startingState` given, use it directly", else weighted
random selection over all states with draw `r0`. -/
def generateNodes (graph : GraphData) (startingNode : Option Node) (lengthLimit : ℤ)
    (r0 : ℚ) (draws : ℕ → ℚ) : List Node :=
  let currentNode : Option Node :=
    match startingNode with
    | some n => some n
    | none => chooseRandomNode graph.nodes r0
  walkLoop graph draws 0 currentNode lengthLimit.toNat

/-- Source `useGenerator.generate`: the `generatedResult` list of pushed labels. -/
def generate (graph : GraphData) (startingNode : Option Node) (lengthLimit : ℤ)
    (r0 : ℚ) (draws : ℕ → ℚ) : List String :=
  (generateNodes graph startingNode lengthLimit r0 draws).map Node.label

/-! ## Playback bookkeeping: `app.tsx` -/

/-- Source `app.tsx`: `SequenceGroup = { startingState, delimiter, lengthLimit, sequences }`
(sequences stored as label lists, as produced by `generate`). -/
structure SequenceGroup where
  startingState : String
  delimiter : String
  lengthLimit : ℤ
  sequences : List (List String)
deriving Repr, DecidableEq

/-- Source `app.tsx` line 102: `startingState.length > 0 ? graph.nodes.find(n => n.id ===
startingState) : undefined`. -/
def startingNodeFor (graph : GraphData) (startingState : String) : Option Node :=
  if startingState.length > 0 then graph.nodes.find? (fun n => n.id == startingState)
  else none

/-- The net effect on `sequenceGroups` of one completed play/step cycle
(`generateNewSequence` followed by `finishAnimating`): the last group is reused
(popped from the prefix, sequence appended) exactly when its
`(delimiter, lengthLimit, startingState)` triple equals the current parameters,
otherwise a fresh group holding only the new sequence is appended. -/
def playOnce (groups : List SequenceGroup) (startingState delimiter : String)
    (lengthLimit : ℤ) (seq : List String) : List SequenceGroup :=
  match groups.getLast? with
  | none =>
      groups ++ [{ startingState := startingState, delimiter := delimiter,
                   lengthLimit := lengthLimit, sequences := [seq] }]
  | some current =>
      if current.delimiter ≠ delimiter ∨ current.lengthLimit ≠ lengthLimit ∨
          current.startingState ≠ startingState then
        groups ++ [{ startingState := startingState, delimiter := delimiter,
                     lengthLimit := lengthLimit, sequences := [seq] }]
      else
        groups.dropLast ++ [{ current with sequences := current.sequences ++ [seq] }]

/-- Source `app.tsx`: `const MaxLengthLimit = 25`. -/
def MaxLengthLimit : ℤ := 25

/-- Source `handleChangeLengthLimit` after `parseInt` (a NaN parse is `none`):
`setLengthLimit(isNaN(numberValue) ? undefined : Math.min(MaxLengthLimit, numberValue))`. -/
def handleChangeLengthLimit (numberValue : Option ℤ) : Option ℤ :=
  match numberValue with
  | none => none
  | some n => some (min MaxLengthLimit n)

/-! ## Auxiliary predicates and measures used to state the properties -/

/-- A chain model as the spec's data model describes it: transition weights are
non-negative counts and every transition's target is a state of the model (with a
non-empty id, as produced by `updateGraph`). -/
def WellFormed (graph : GraphData) : Prop :=
  ∀ e ∈ graph.edges, 0 ≤ e.value ∧ e.to_ ≠ "" ∧ ∃ m ∈ graph.nodes, m.id = e.to_

/-- The random draws delivered by `Math.random()` all lie in `[0, 1)`. -/
def ValidDraws (draws : ℕ → ℚ) : Prop := ∀ i, 0 ≤ draws i ∧ draws i < 1

/-- Total weight carried by the nodes of a given label. -/
def labelWeight (nodes : List Node) (s : String) : ℚ :=
  ((nodes.filter (fun n => n.label == s)).map Node.value).sum

/-- Sum of all transition weights. -/
def edgeWeightSum (edges : List Edge) : ℚ :=
  (edges.map Edge.value).sum

/-- Structural invariant of the builder state: node labels are pairwise distinct and
non-empty, ids coincide with labels, and edge (from, to) pairs are pairwise distinct. -/
def BuildInv (st : BuildState) : Prop :=
  (st.nodes.map Node.label).Nodup ∧
  (∀ n ∈ st.nodes, n.id = n.label ∧ n.label ≠ "") ∧
  (st.edges.map (fun e => (e.from_, e.to_))).Nodup

/-! ## Lemmas about the cumulative-weight scan -/

theorem cumFind_isSome {α : Type} {w : α → ℚ} :
    ∀ (xs : List α) (t c : ℚ), xs ≠ [] → c ≤ t + (xs.map w).sum →
      (cumFind w xs t c).isSome := by
  intro xs
  induction xs with
  | nil => intro t c h; exact absurd rfl h
  | cons x rest ih =>
    intro t c _ hc
    by_cases h : c ≤ t + w x
    · simp [cumFind, h]
    · cases rest with
      | nil => exact absurd (by simpa using hc) h
      | cons y ys =>
        have hc' : c ≤ (t + w x) + ((y :: ys).map w).sum := by
          simp only [List.map_cons, List.sum_cons] at hc ⊢
          linarith
        simpa [cumFind, h] using ih (t + w x) c (by simp) hc'

theorem cumFind_mem {α : Type} {w : α → ℚ} :
    ∀ (xs : List α) (t c : ℚ) (x : α), cumFind w xs t c = some x → x ∈ xs := by
  intro xs
  induction xs with
  | nil => intro t c x h; simp [cumFind] at h
  | cons y rest ih =>
    intro t c x h
    by_cases hc : c ≤ t + w y
    · simp [cumFind, hc] at h
      simp [h]
    · simp only [cumFind, if_neg hc] at h
      exact List.mem_cons_of_mem y (ih _ _ _ h)

theorem cumFind_pos {α : Type} {w : α → ℚ} :
    ∀ (xs : List α) (t c : ℚ) (x : α), t < c → cumFind w xs t c = some x →
      0 < w x := by
  intro xs
  induction xs with
  | nil => intro t c x _ h; simp [cumFind] at h
  | cons y rest ih =>
    intro t c x ht h
    by_cases hc : c ≤ t + w y
    · simp [cumFind, hc] at h
      subst h; linarith
    · simp only [cumFind, if_neg hc] at h
      push_neg at hc
      exact ih (t + w y) c x (by linarith) h

/-- A selection with a strictly positive threshold lands on a strictly positive
weight.  The threshold `r * sum` is positive as soon as the draw is positive and
some candidate has positive weight (all weights being non-negative). -/
theorem cumFind_select_pos {α : Type} {w : α → ℚ} (xs : List α) (r : ℚ) (x : α)
    (hw : ∀ y ∈ xs, 0 ≤ w y) (hex : ∃ y ∈ xs, 0 < w y) (hr : 0 < r)
    (h : cumFind w xs 0 (r * (xs.map w).sum) = some x) : 0 < w x := by
  obtain ⟨y, hy, hpos⟩ := hex
  have hle : w y ≤ (xs.map w).sum :=
    List.single_le_sum (by intro a ha; obtain ⟨b, hb, rfl⟩ := List.mem_map.mp ha; exact hw b hb)
      _ (List.mem_map_of_mem w hy)
  have hsum : 0 < (xs.map w).sum := lt_of_lt_of_le hpos hle
  exact cumFind_pos xs 0 _ x (mul_pos hr hsum) h

/-- With exactly one positive-weight candidate and a draw in `(0, 1)`, the scan
selects that candidate. -/
theorem cumFind_select_unique {α : Type} {w : α → ℚ} (xs : List α) (r : ℚ) (x : α)
    (hw : ∀ y ∈ xs, 0 ≤ w y) (hr : 0 < r) (hr1 : r < 1)
    (hx : x ∈ xs) (hpos : 0 < w x) (huniq : ∀ y ∈ xs, 0 < w y → y = x) :
    cumFind w xs 0 (r * (xs.map w).sum) = some x := by
  have hsumnn : 0 ≤ (xs.map w).sum :=
    List.sum_nonneg (by intro a ha; obtain ⟨b, hb, rfl⟩ := List.mem_map.mp ha; exact hw b hb)
  have hthr : r * (xs.map w).sum ≤ 0 + (xs.map w).sum := by
    have := mul_le_of_le_one_left hsumnn (le_of_lt hr1)
    linarith
  have hne : xs ≠ [] := by intro hnil; subst hnil; exact absurd hx (List.not_mem_nil x)
  obtain ⟨y, hy⟩ := Option.isSome_iff_exists.mp (cumFind_isSome xs 0 _ hne hthr)
  have hymem : y ∈ xs := cumFind_mem xs _ _ y hy
  have hypos : 0 < w y := cumFind_select_pos xs r y hw ⟨x, hx, hpos⟩ hr hy
  rw [hy, huniq y hymem hypos]

/-- If the scan fails on a candidate list with non-negative weights and a draw below 1,
the candidate list was empty. -/
theorem cumFind_eq_none {α : Type} {w : α → ℚ} (xs : List α) (r : ℚ)
    (hw : ∀ y ∈ xs, 0 ≤ w y) (hr1 : r < 1)
    (h : cumFind w xs 0 (r * (xs.map w).sum) = none) : xs = [] := by
  by_contra hne
  have hsumnn : 0 ≤ (xs.map w).sum :=
    List.sum_nonneg (by intro a ha; obtain ⟨b, hb, rfl⟩ := List.mem_map.mp ha; exact hw b hb)
  have hthr : r * (xs.map w).sum ≤ 0 + (xs.map w).sum := by
    have := mul_le_of_le_one_left hsumnn (le_of_lt hr1)
    linarith
  have := cumFind_isSome xs 0 (r * (xs.map w).sum) hne hthr
  rw [h] at this
  exact Bool.noConfusion this

/-! ## C2: weighted-selection boundary behaviour -/

/-- C2 (amended): in `chooseRandomNode` and `chooseRandomEdge`, for every draw `r`
with `0 < r < 1` a weight-0 candidate is never selected when a positive-weight
alternative exists, and when exactly one candidate has positive weight that candidate
is selected; at `r = 0` the very first candidate is selected regardless of weight
(the scan's `tSum >= chosenSum` is non-strict), which is the only exception. -/
theorem weighted_selection_boundary :
    (∀ (nodes : List Node) (r : ℚ) (x : Node),
      (∀ n ∈ nodes, 0 ≤ n.value) → (∃ n ∈ nodes, 0 < n.value) → 0 < r →
      chooseRandomNode nodes r = some x → 0 < x.value) ∧
    (∀ (nodes : List Node) (r : ℚ) (x : Node),
      (∀ n ∈ nodes, 0 ≤ n.value) → 0 < r → r < 1 →
      x ∈ nodes → 0 < x.value → (∀ y ∈ nodes, 0 < y.value → y = x) →
      chooseRandomNode nodes r = some x) ∧
    (∀ (graph : GraphData) (node : Node) (r : ℚ) (e : Edge),
      (∀ e' ∈ outgoingEdges graph node, 0 ≤ e'.value) →
      (∃ e' ∈ outgoingEdges graph node, 0 < e'.value) → 0 < r →
      chooseRandomEdge graph node r = some e → 0 < e.value) ∧
    (∀ (graph : GraphData) (node : Node) (r : ℚ) (e : Edge),
      (∀ e' ∈ outgoingEdges graph node, 0 ≤ e'.value) → 0 < r → r < 1 →
      e ∈ outgoingEdges graph node → 0 < e.value →
      (∀ e' ∈ outgoingEdges graph node, 0 < e'.value → e' = e) →
      chooseRandomEdge graph node r = some e) := by
  refine ⟨?_, ?_, ?_, ?_⟩
  · intro nodes r x hw hex hr h
    exact cumFind_select_pos nodes r x hw hex hr h
  · intro nodes r x hw hr hr1 hx hpos huniq
    exact cumFind_select_unique nodes r x hw hr hr1 hx hpos huniq
  · intro graph node r e hw hex hr h
    exact cumFind_select_pos (outgoingEdges graph node) r e hw hex hr h
  · intro graph node r e hw hr hr1 he hpos huniq
    exact cumFind_select_unique (outgoingEdges graph node) r e hw hr hr1 he hpos huniq

/-- C2 witness: on nodes `[A (weight 0), B (weight 1)]` with draw `1/2`, the unique
positive-weight candidate B is selected. -/
theorem weighted_selection_boundary_witness :
    chooseRandomNode [⟨"A", "A", 0⟩, ⟨"B", "B", 1⟩] (1/2) = some ⟨"B", "B", 1⟩ :=
  weighted_selection_boundary.2.1 [⟨"A", "A", 0⟩, ⟨"B", "B", 1⟩] (1/2) ⟨"B", "B", 1⟩
    (by decide) (by norm_num) (by norm_num) (by decide) (by norm_num) (by decide)

/-- C2 counterexample: with draw `r = 0` (a value `Math.random()` can return), the
weight-0 node A is selected even though the positive-weight node B is available, so
"never selected" and "that candidate is selected for every value of the random draw"
both fail as stated. -/
theorem weighted_selection_boundary_counterexample :
    chooseRandomNode [⟨"A", "A", 0⟩, ⟨"B", "B", 1⟩] 0 = some ⟨"A", "A", 0⟩ ∧
    (Node.mk "A" "A" 0).value = 0 ∧
    (Node.mk "B" "B" 1) ∈ [Node.mk "A" "A" 0, Node.mk "B" "B" 1] ∧
    0 < (Node.mk "B" "B" 1).value ∧
    (0:ℚ) ≤ 0 ∧ (0:ℚ) < 1 := by
  refine ⟨?_, by decide, by decide, by decide, by decide, by decide⟩
  norm_num [chooseRandomNode, cumFind]

/-! ## C4: separators split sub-sequences -/

/-- C4: an empty-string observation emits no state and no transition and only resets
the previous-state tracker, so `["A","B","","C","D"]` yields exactly the transitions
A→B and C→D, and in particular never B→C. -/
theorem separator_splits_subsequences :
    (∀ st : BuildState, updateGraphStep st "" = { st with prevNode := none }) ∧
    updateGraph ["A", "B", "", "C", "D"] =
      { nodes := [⟨"A", "A", 1⟩, ⟨"B", "B", 1⟩, ⟨"C", "C", 1⟩, ⟨"D", "D", 1⟩],
        edges := [⟨"A", "B", 1⟩, ⟨"C", "D", 1⟩] } ∧
    ((updateGraph ["A", "B", "", "C", "D"]).edges.all
      (fun e => !(e.from_ == "B" && e.to_ == "C"))) = true := by
  refine ⟨fun st => rfl, by decide, by decide⟩

/-! ## C10: non-positive lengthLimit -/

/-- C10: for every graph and every `lengthLimit ≤ 0`, `generate` returns the empty
sequence (the loop guard fails before any state is appended), and the UI length
handler clamps only from above at `MaxLengthLimit = 25`: any value at most 25 —
negative values included — is stored as is. -/
theorem nonpositive_lengthLimit_yields_empty :
    (∀ (graph : GraphData) (startingNode : Option Node) (L : ℤ) (r0 : ℚ)
        (draws : ℕ → ℚ), L ≤ 0 → generate graph startingNode L r0 draws = []) ∧
    (∀ n : ℤ, n ≤ MaxLengthLimit → handleChangeLengthLimit (some n) = some n) := by
  constructor
  · intro graph startingNode L r0 draws hL
    have h0 : L.toNat = 0 := Int.toNat_of_nonpos hL
    unfold generate generateNodes
    rw [h0]
    cases startingNode with
    | some n => simp [walkLoop]
    | none => cases chooseRandomNode graph.nodes r0 <;> simp [walkLoop]
  · intro n hn
    simp [handleChangeLengthLimit, min_eq_right hn]

/-- C10 witness: a lengthLimit of −3 yields the empty sequence on a concrete graph,
and the UI handler stores −3 unclamped. -/
theorem nonpositive_lengthLimit_yields_empty_witness :
    generate (updateGraph ["A", "B"]) none (-3) 0 (fun _ => 0) = [] ∧
    handleChangeLengthLimit (some (-3)) = some (-3) :=
  ⟨nonpositive_lengthLimit_yields_empty.1 (updateGraph ["A", "B"]) none (-3) 0
      (fun _ => 0) (by decide),
   nonpositive_lengthLimit_yields_empty.2 (-3) (by decide)⟩

/-! ## C8: generation against an empty model -/

/-- C8 (amended): generation against a model with zero states returns a zero-length
sequence and the play cycle completes without error, but it is not a bookkeeping
no-op: the play cycle still appends the empty sequence to a SequenceGroup (a fresh
group when none matches the parameters). -/
theorem empty_model_play_appends_empty_sequence :
    (∀ (es : List Edge) (s : String) (L : ℤ) (r0 : ℚ) (draws : ℕ → ℚ),
      generate ⟨[], es⟩ (startingNodeFor ⟨[], es⟩ s) L r0 draws = []) ∧
    (∀ (s d : String) (L : ℤ),
      playOnce [] s d L [] =
        [{ startingState := s, delimiter := d, lengthLimit := L, sequences := [[]] }]) := by
  constructor
  · intro es s L r0 draws
    have hstart : startingNodeFor ⟨[], es⟩ s = none := by
      simp [startingNodeFor]
    rw [hstart]
    unfold generate generateNodes
    have hchoose : chooseRandomNode ([] : List Node) r0 = none := rfl
    simp only [hchoose]
    cases L.toNat <;> simp [walkLoop]
  · intro s d L
    rfl

/-- C8 counterexample: with an empty model the play cycle does create a SequenceGroup
(holding one empty sequence) rather than leaving the output history untouched. -/
theorem empty_model_play_counterexample :
    playOnce [] "" "" 5 (generate ⟨[], []⟩ none 5 0 (fun _ => 0)) =
      [{ startingState := "", delimiter := "", lengthLimit := 5, sequences := [[]] }] ∧
    ([{ startingState := "", delimiter := "", lengthLimit := (5:ℤ), sequences := [[]] }] :
      List SequenceGroup) ≠ [] := by
  exact ⟨rfl, by decide⟩

/-! ## C6: SequenceGroup reuse -/

/-- C6: the most recently used group is reused exactly when its recorded
(startingState, lengthLimit, delimiter) triple equals the current parameters,
otherwise a fresh group is appended; hence two consecutive plays with identical
parameters stack two sequences into one group, while changing the lengthLimit in
between yields two groups with one sequence each. -/
theorem group_reuse_iff_params_match :
    (∀ (groups : List SequenceGroup) (g : SequenceGroup) (s d : String) (L : ℤ)
        (seq : List String), groups.getLast? = some g →
      (g.startingState = s ∧ g.delimiter = d ∧ g.lengthLimit = L →
        playOnce groups s d L seq =
          groups.dropLast ++ [{ g with sequences := g.sequences ++ [seq] }]) ∧
      (¬(g.startingState = s ∧ g.delimiter = d ∧ g.lengthLimit = L) →
        playOnce groups s d L seq =
          groups ++ [{ startingState := s, delimiter := d, lengthLimit := L,
                       sequences := [seq] }])) ∧
    (∀ (s d : String) (L : ℤ) (seq1 seq2 : List String),
      playOnce (playOnce [] s d L seq1) s d L seq2 =
        [{ startingState := s, delimiter := d, lengthLimit := L,
           sequences := [seq1, seq2] }]) ∧
    (∀ (s d : String) (L1 L2 : ℤ) (seq1 seq2 : List String), L1 ≠ L2 →
      playOnce (playOnce [] s d L1 seq1) s d L2 seq2 =
        [{ startingState := s, delimiter := d, lengthLimit := L1, sequences := [seq1] },
         { startingState := s, delimiter := d, lengthLimit := L2,
           sequences := [seq2] }]) := by
  refine ⟨?_, ?_, ?_⟩
  · intro groups g s d L seq hlast
    constructor
    · rintro ⟨h1, h2, h3⟩
      simp [playOnce, hlast, h1, h2, h3]
    · intro hmis
      have hcond : g.delimiter ≠ d ∨ g.lengthLimit ≠ L ∨ g.startingState ≠ s := by
        tauto
      simp only [playOnce, hlast]
      rw [if_pos hcond]
  · intro s d L seq1 seq2
    simp [playOnce]
  · intro s d L1 L2 seq1 seq2 hne
    simp [playOnce, hne]

/-- C6 witness: replaying with the identical (startingState, lengthLimit, delimiter)
triple appends the new sequence to the existing group. -/
theorem group_reuse_iff_params_match_witness :
    playOnce [⟨"R", " ", 5, [["R", "P"]]⟩] "R" " " 5 ["R", "R"] =
      [⟨"R", " ", 5, [["R", "P"], ["R", "R"]]⟩] := by
  have h := (group_reuse_iff_params_match.1 [⟨"R", " ", 5, [["R", "P"]]⟩]
      ⟨"R", " ", 5, [["R", "P"]]⟩ "R" " " 5 ["R", "R"] rfl).1 ⟨rfl, rfl, rfl⟩
  simpa using h

/-! ## C1: a present startingState is used directly -/

/-- C1: when the requested startingState id resolves to a node of the model, the walk
starts exactly there — the head of every non-empty generated sequence is that node's
label — and random initial selection (`chooseRandomNode`) is consulted only when no
startingState is given. -/
theorem startingState_used_directly :
    (∀ (graph : GraphData) (s : String) (n : Node) (L : ℤ) (r0 : ℚ) (draws : ℕ → ℚ),
      startingNodeFor graph s = some n →
      n.id = s ∧
      (∀ res, res = generate graph (startingNodeFor graph s) L r0 draws → res ≠ [] →
        res.head? = some n.label)) ∧
    (∀ (graph : GraphData) (L : ℤ) (r0 : ℚ) (draws : ℕ → ℚ), 1 ≤ L →
      (generate graph none L r0 draws).head? =
        (chooseRandomNode graph.nodes r0).map Node.label) := by
  constructor
  · intro graph s n L r0 draws hfind
    have hid : n.id = s := by
      unfold startingNodeFor at hfind
      by_cases hs : s.length > 0
      · rw [if_pos hs] at hfind
        have hbeq := List.find?_some hfind
        simpa using hbeq
      · rw [if_neg hs] at hfind
        exact Option.noConfusion hfind
    refine ⟨hid, ?_⟩
    intro res hres hne
    rw [hfind] at hres
    unfold generate generateNodes at hres
    cases hL : L.toNat with
    | zero =>
      rw [hL] at hres
      simp [walkLoop] at hres
      exact absurd hres hne
    | succ k =>
      rw [hL] at hres
      subst hres
      simp [walkLoop]
  · intro graph L r0 draws hL
    obtain ⟨k, hk⟩ : ∃ k, L.toNat = k + 1 := ⟨L.toNat - 1, by omega⟩
    unfold generate generateNodes
    rw [hk]
    cases hch : chooseRandomNode graph.nodes r0 <;> simp [walkLoop, hch]

/-- C1 witness: on a one-node model, requesting startingState "A" yields a sequence
headed by "A". -/
theorem startingState_used_directly_witness :
    (generate ⟨[⟨"A", "A", 1⟩], []⟩
        (startingNodeFor ⟨[⟨"A", "A", 1⟩], []⟩ "A") 5 0 (fun _ => 0)).head? =
      some "A" :=
  ((startingState_used_directly.1 ⟨[⟨"A", "A", 1⟩], []⟩ "A" ⟨"A", "A", 1⟩ 5 0
      (fun _ => 0) rfl).2 _ rfl (by decide)).trans rfl

/-! ## C5: empty model and unknown startingState -/

/-- C5 (amended): generation against a model with zero states returns a length-0
result without raising; but a requested startingState id that is not present in the
model resolves to no starting node, so generation falls back to random initial
selection and behaves exactly like a request without a startingState (it does not
return a length-0 result on a non-empty model). -/
theorem empty_model_or_unknown_start :
    (∀ (es : List Edge) (s : String) (L : ℤ) (r0 : ℚ) (draws : ℕ → ℚ),
      (generate ⟨[], es⟩ (startingNodeFor ⟨[], es⟩ s) L r0 draws).length = 0) ∧
    (∀ (graph : GraphData) (s : String) (L : ℤ) (r0 : ℚ) (draws : ℕ → ℚ),
      (∀ n ∈ graph.nodes, n.id ≠ s) →
      generate graph (startingNodeFor graph s) L r0 draws =
        generate graph none L r0 draws) := by
  constructor
  · intro es s L r0 draws
    have hstart : startingNodeFor ⟨[], es⟩ s = none := by
      simp [startingNodeFor]
    rw [hstart]
    unfold generate generateNodes
    have hchoose : chooseRandomNode ([] : List Node) r0 = none := rfl
    simp only [hchoose]
    cases L.toNat <;> simp [walkLoop]
  · intro graph s L r0 draws habsent
    have hstart : startingNodeFor graph s = none := by
      unfold startingNodeFor
      by_cases hs : s.length > 0
      · rw [if_pos hs]
        exact List.find?_eq_none.mpr (fun n hn => by
          simpa using habsent n hn)
      · rw [if_neg hs]
    rw [hstart]

/-- C5 witness: requesting the absent startingState "Z" on the chain A⇄B behaves as a
request without a startingState. -/
theorem empty_model_or_unknown_start_witness :
    generate ⟨[⟨"A", "A", 2⟩, ⟨"B", "B", 1⟩], [⟨"A", "B", 1⟩, ⟨"B", "A", 1⟩]⟩
        (startingNodeFor ⟨[⟨"A", "A", 2⟩, ⟨"B", "B", 1⟩], [⟨"A", "B", 1⟩, ⟨"B", "A", 1⟩]⟩ "Z")
        3 0 (fun _ => 0) =
      generate ⟨[⟨"A", "A", 2⟩, ⟨"B", "B", 1⟩], [⟨"A", "B", 1⟩, ⟨"B", "A", 1⟩]⟩ none
        3 0 (fun _ => 0) :=
  empty_model_or_unknown_start.2
    ⟨[⟨"A", "A", 2⟩, ⟨"B", "B", 1⟩], [⟨"A", "B", 1⟩, ⟨"B", "A", 1⟩]⟩ "Z" 3 0 (fun _ => 0)
    (by decide)

/-- C5 counterexample: the model built from `["A","B","A"]` does not contain a state
with id "Z", yet requesting startingState "Z" with lengthLimit 3 returns a length-3
sequence, not a length-0 one. -/
theorem unknown_startingState_counterexample :
    ((updateGraph ["A", "B", "A"]).nodes.all (fun n => n.id != "Z")) = true ∧
    generate (updateGraph ["A", "B", "A"])
        (startingNodeFor (updateGraph ["A", "B", "A"]) "Z") 3 0 (fun _ => 0) =
      ["A", "B", "A"] ∧
    (["A", "B", "A"] : List String).length ≠ 0 := by
  refine ⟨by decide, ?_, by decide⟩
  have hg : updateGraph ["A", "B", "A"] =
      ⟨[⟨"A", "A", 2⟩, ⟨"B", "B", 1⟩], [⟨"A", "B", 1⟩, ⟨"B", "A", 1⟩]⟩ := by
    simp [updateGraph, updateGraphStep, incFirstNodeByLabel, incFirstEdge]
    norm_num
  rw [hg]
  norm_num [generate, generateNodes, startingNodeFor, chooseRandomNode, cumFind,
    walkLoop, nextNode, chooseRandomEdge, outgoingEdges]

/-! ## C3: length bound and dead-end termination -/

theorem walkLoop_length_le (graph : GraphData) (draws : ℕ → ℚ) :
    ∀ (rem idx : ℕ) (cur : Option Node),
      (walkLoop graph draws idx cur rem).length ≤ rem := by
  intro rem
  induction rem with
  | zero =>
    intro idx cur
    cases cur <;> simp [walkLoop]
  | succ k ih =>
    intro idx cur
    cases cur with
    | none => simp [walkLoop]
    | some n =>
      simpa [walkLoop] using ih (idx + 1) (nextNode graph n (draws idx))

theorem mem_of_mem_outgoing {graph : GraphData} {node : Node} {e : Edge}
    (h : e ∈ outgoingEdges graph node) : e ∈ graph.edges :=
  List.mem_of_mem_filter h

/-- When draws lie in `[0, 1)` and edge weights are non-negative, the walk's
next-node computation comes back empty only at a state with no outgoing edges. -/
theorem nextNode_none_dead_end (graph : GraphData) (node : Node) (r : ℚ)
    (hwf : WellFormed graph) (hr1 : r < 1)
    (h : nextNode graph node r = none) : outgoingEdges graph node = [] := by
  unfold nextNode at h
  cases hce : chooseRandomEdge graph node r with
  | none =>
    simp only [chooseRandomEdge] at hce
    refine cumFind_eq_none (outgoingEdges graph node) r ?_ hr1 hce
    intro e he
    exact (hwf e (mem_of_mem_outgoing he)).1
  | some e =>
    exfalso
    rw [hce] at h
    have hmem : e ∈ outgoingEdges graph node := by
      have hce' := hce
      simp only [chooseRandomEdge] at hce'
      exact cumFind_mem _ _ _ _ hce'
    have hewf := hwf e (mem_of_mem_outgoing hmem)
    simp only [if_neg hewf.2.1] at h
    obtain ⟨m, hm, hmid⟩ := hewf.2.2
    have := List.find?_eq_none.mp h m hm
    simp [hmid] at this

/-- A walk that stops strictly before exhausting its allowance is either empty or
ends at a dead end. -/
theorem walkLoop_short_dead_end (graph : GraphData) (draws : ℕ → ℚ)
    (hwf : WellFormed graph) (hd : ValidDraws draws) :
    ∀ (rem idx : ℕ) (cur : Option Node),
      (walkLoop graph draws idx cur rem).length < rem →
      walkLoop graph draws idx cur rem = [] ∨
      ∃ last, (walkLoop graph draws idx cur rem).getLast? = some last ∧
        outgoingEdges graph last = [] := by
  intro rem
  induction rem with
  | zero =>
    intro idx cur h
    exact absurd h (Nat.not_lt_zero _)
  | succ k ih =>
    intro idx cur h
    cases cur with
    | none => exact Or.inl rfl
    | some n =>
      right
      simp only [walkLoop] at h ⊢
      have hlen : (walkLoop graph draws (idx + 1) (nextNode graph n (draws idx)) k).length < k := by
        simpa using h
      rcases ih (idx + 1) (nextNode graph n (draws idx)) hlen with hnil | ⟨last, hlast, hdead⟩
      · -- the tail is empty although allowance remained: the edge scan found nothing
        have hk : 0 < k := by rw [hnil] at hlen; simpa using hlen
        have hnn : nextNode graph n (draws idx) = none := by
          cases hnn : nextNode graph n (draws idx) with
          | none => rfl
          | some m =>
            exfalso
            obtain ⟨k', rfl⟩ : ∃ k', k = k' + 1 := ⟨k - 1, by omega⟩
            rw [hnn] at hnil
            simp [walkLoop] at hnil
        refine ⟨n, ?_, ?_⟩
        · rw [hnil]; rfl
        · exact nextNode_none_dead_end graph n (draws idx) hwf (hd idx).2 hnn
      · refine ⟨last, ?_, hdead⟩
        have hne : walkLoop graph draws (idx + 1) (nextNode graph n (draws idx)) k ≠ [] := by
          intro hc
          rw [hc] at hlast
          exact Option.noConfusion hlast
        obtain ⟨r1, rs, hcons⟩ := List.exists_cons_of_ne_nil hne
        rw [hcons] at hlast ⊢
        rw [List.getLast?_cons_cons]
        exact hlast

/-- C3: `generate` never returns more than `lengthLimit` states; on a well-formed
model with draws in `[0, 1)`, a shorter-than-requested non-empty result ends at a
state with no outgoing transitions (a dead end); and on the chain A→B with B a dead
end, starting at A with lengthLimit 5 returns exactly `["A", "B"]` whatever the
draws. -/
theorem generation_length_and_dead_end :
    (∀ (graph : GraphData) (startingNode : Option Node) (L : ℤ) (r0 : ℚ)
        (draws : ℕ → ℚ), (generate graph startingNode L r0 draws).length ≤ L.toNat) ∧
    (∀ (graph : GraphData) (startingNode : Option Node) (L : ℤ) (r0 : ℚ)
        (draws : ℕ → ℚ), WellFormed graph → ValidDraws draws →
      ∀ res, res = generateNodes graph startingNode L r0 draws →
        res.length < L.toNat →
        res = [] ∨ ∃ last, res.getLast? = some last ∧ outgoingEdges graph last = []) ∧
    (∀ (r0 : ℚ) (draws : ℕ → ℚ), ValidDraws draws →
      generate (updateGraph ["A", "B"]) (startingNodeFor (updateGraph ["A", "B"]) "A")
        5 r0 draws = ["A", "B"]) := by
  refine ⟨?_, ?_, ?_⟩
  · intro graph startingNode L r0 draws
    unfold generate generateNodes
    rw [List.length_map]
    exact walkLoop_length_le graph draws L.toNat 0 _
  · intro graph startingNode L r0 draws hwf hd res hres hlen
    subst hres
    unfold generateNodes at hlen ⊢
    exact walkLoop_short_dead_end graph draws hwf hd L.toNat 0 _ hlen
  · intro r0 draws hd
    have hgab : updateGraph ["A", "B"] =
        ⟨[⟨"A", "A", 1⟩, ⟨"B", "B", 1⟩], [⟨"A", "B", 1⟩]⟩ := by decide
    rw [hgab]
    have hstart : startingNodeFor ⟨[⟨"A", "A", 1⟩, ⟨"B", "B", 1⟩], [⟨"A", "B", 1⟩]⟩ "A" =
        some ⟨"A", "A", 1⟩ := rfl
    rw [hstart]
    have hA : nextNode ⟨[⟨"A", "A", 1⟩, ⟨"B", "B", 1⟩], [⟨"A", "B", 1⟩]⟩ ⟨"A", "A", 1⟩
        (draws 0) = some ⟨"B", "B", 1⟩ := by
      have h0 := hd 0
      norm_num [nextNode, chooseRandomEdge, outgoingEdges, cumFind]
      rw [if_pos (le_of_lt h0.2)]
      decide
    have hB : nextNode ⟨[⟨"A", "A", 1⟩, ⟨"B", "B", 1⟩], [⟨"A", "B", 1⟩]⟩ ⟨"B", "B", 1⟩
        (draws 1) = none := rfl
    unfold generate generateNodes
    simp [walkLoop, hA, hB]

/-- C3 witness: the bound, the dead-end characterisation and the A→B scenario all
instantiated with the all-zero draw stream. -/
theorem generation_length_and_dead_end_witness :
    generate (updateGraph ["A", "B"]) (startingNodeFor (updateGraph ["A", "B"]) "A")
      5 0 (fun _ => 0) = ["A", "B"] :=
  generation_length_and_dead_end.2.2 0 (fun _ => 0)
    (fun _ => ⟨le_refl 0, by norm_num⟩)

/-! ## Builder lemmas: increments change weights, never the shape -/

theorem incFirstNodeByLabel_map_label (nodes : List Node) (v : String) :
    (incFirstNodeByLabel nodes v).map Node.label = nodes.map Node.label := by
  induction nodes with
  | nil => rfl
  | cons n rest ih =>
    by_cases hn : (n.label == v) = true
    · simp [incFirstNodeByLabel, hn]
    · simp [incFirstNodeByLabel, hn, ih]

theorem incFirstNodeByLabel_map_id (nodes : List Node) (v : String) :
    (incFirstNodeByLabel nodes v).map Node.id = nodes.map Node.id := by
  induction nodes with
  | nil => rfl
  | cons n rest ih =>
    by_cases hn : (n.label == v) = true
    · simp [incFirstNodeByLabel, hn]
    · simp [incFirstNodeByLabel, hn, ih]

theorem incFirstEdge_map_pair (edges : List Edge) (f t : String) :
    (incFirstEdge edges f t).map (fun e => (e.from_, e.to_)) =
      edges.map (fun e => (e.from_, e.to_)) := by
  induction edges with
  | nil => rfl
  | cons e rest ih =>
    by_cases he : (e.from_ == f && e.to_ == t) = true
    · simp [incFirstEdge, he]
    · simp [incFirstEdge, he, ih]

theorem mem_incFirstNodeByLabel (nodes : List Node) (v : String) (n' : Node)
    (h : n' ∈ incFirstNodeByLabel nodes v) :
    ∃ m ∈ nodes, n'.id = m.id ∧ n'.label = m.label := by
  induction nodes with
  | nil => simp [incFirstNodeByLabel] at h
  | cons m rest ih =>
    by_cases hm : (m.label == v) = true
    · simp only [incFirstNodeByLabel, if_pos hm] at h
      cases List.mem_cons.mp h with
      | inl heq => exact ⟨m, List.mem_cons_self m rest, by subst heq; exact ⟨rfl, rfl⟩⟩
      | inr hr => exact ⟨n', List.mem_cons_of_mem m hr, rfl, rfl⟩
    · simp only [incFirstNodeByLabel, if_neg hm] at h
      cases List.mem_cons.mp h with
      | inl heq => subst heq; exact ⟨n', List.mem_cons_self n' rest, rfl, rfl⟩
      | inr hr =>
        obtain ⟨m2, hm2, h2⟩ := ih hr
        exact ⟨m2, List.mem_cons_of_mem m hm2, h2⟩

theorem labelWeight_cons (x : Node) (xs : List Node) (s : String) :
    labelWeight (x :: xs) s =
      (if x.label = s then x.value else 0) + labelWeight xs s := by
  unfold labelWeight
  by_cases h : x.label = s
  · simp [List.filter_cons, h]
  · simp [List.filter_cons, h]

theorem labelWeight_incFirst (nodes : List Node) (v s : String)
    (h : ∃ m ∈ nodes, m.label = v) :
    labelWeight (incFirstNodeByLabel nodes v) s =
      labelWeight nodes s + (if v = s then 1 else 0) := by
  induction nodes with
  | nil =>
    obtain ⟨m, hm, _⟩ := h
    exact absurd hm (List.not_mem_nil m)
  | cons n rest ih =>
    by_cases hn : (n.label == v) = true
    · simp only [incFirstNodeByLabel, if_pos hn]
      rw [labelWeight_cons, labelWeight_cons]
      have hnv : n.label = v := by simpa using hn
      by_cases hs : n.label = s
      · have hvs : v = s := hnv ▸ hs
        simp only [hs, if_pos rfl, hvs]
        ring_nf
        simp [hs]
        ring
      · have hvs : ¬ v = s := fun hc => hs (hnv ▸ hc)
        simp only [if_neg hvs]
        have : ({ n with value := n.value + 1 } : Node).label = n.label := rfl
        rw [this]
        simp [if_neg hs]
    · simp only [incFirstNodeByLabel, if_neg hn]
      rw [labelWeight_cons, labelWeight_cons]
      have h' : ∃ m ∈ rest, m.label = v := by
        obtain ⟨m, hm, hml⟩ := h
        cases List.mem_cons.mp hm with
        | inl heq => exact absurd (by subst heq; simp [hml]) hn
        | inr hr => exact ⟨m, hr, hml⟩
      rw [ih h']
      ring

theorem labelWeight_append_single (nodes : List Node) (v s : String) :
    labelWeight (nodes ++ [{ id := v, label := v, value := 1 }]) s =
      labelWeight nodes s + (if v = s then 1 else 0) := by
  unfold labelWeight
  rw [List.filter_append]
  by_cases h : v = s
  · simp [List.filter_cons, h]
  · simp [List.filter_cons, h]

theorem labelWeight_of_nodup (nodes : List Node) (n : Node)
    (hnd : (nodes.map Node.label).Nodup) (hn : n ∈ nodes) :
    labelWeight nodes n.label = n.value := by
  induction nodes with
  | nil => exact absurd hn (List.not_mem_nil n)
  | cons m rest ih =>
    rw [labelWeight_cons]
    rw [List.map_cons, List.nodup_cons] at hnd
    cases List.mem_cons.mp hn with
    | inl heq =>
      subst heq
      have hrest : labelWeight rest n.label = 0 := by
        unfold labelWeight
        have hfil : rest.filter (fun x => x.label == n.label) = [] := by
          rw [List.filter_eq_nil_iff]
          intro a ha
          have hmem : a.label ∈ rest.map Node.label := List.mem_map_of_mem Node.label ha
          simpa using fun hc : a.label = n.label => hnd.1 (hc ▸ hmem)
        rw [hfil]
        rfl
      simp [hrest]
    | inr hr =>
      have hne : ¬ m.label = n.label := by
        have hmem : n.label ∈ rest.map Node.label := List.mem_map_of_mem Node.label hr
        exact fun hc => hnd.1 (hc ▸ hmem)
      rw [if_neg hne, ih hnd.2 hr]
      ring

/-! ## The builder invariant (C9) -/

theorem updateGraphStep_inv (st : BuildState) (v : String) (h : BuildInv st) :
    BuildInv (updateGraphStep st v) := by
  obtain ⟨hnodes, hids, hedges⟩ := h
  by_cases hv : v ≠ ""
  · refine ⟨?_, ?_, ?_⟩
    · -- node labels stay pairwise distinct
      simp only [updateGraphStep, if_pos hv]
      cases hfind : st.nodes.find? (fun element => element.label == v) with
      | some node =>
        simpa [incFirstNodeByLabel_map_label] using hnodes
      | none =>
        have hfresh : ∀ m ∈ st.nodes, ¬ m.label = v := by
          intro m hm
          simpa using List.find?_eq_none.mp hfind m hm
        simp only [List.map_append, List.map_cons, List.map_nil]
        rw [List.nodup_append]
        refine ⟨hnodes, List.nodup_singleton v, ?_⟩
        intro a ha hb
        obtain ⟨m, hm, rfl⟩ := List.mem_map.mp ha
        simp only [List.mem_singleton] at hb
        exact hfresh m hm hb
    · -- ids coincide with labels and stay non-empty
      simp only [updateGraphStep, if_pos hv]
      cases hfind : st.nodes.find? (fun element => element.label == v) with
      | some node =>
        intro n' hn'
        obtain ⟨m, hm, hid, hlabel⟩ := mem_incFirstNodeByLabel st.nodes v n' hn'
        obtain ⟨hmid, hmlabel⟩ := hids m hm
        exact ⟨by rw [hid, hlabel, hmid], by rw [hlabel]; exact hmlabel⟩
      | none =>
        intro n' hn'
        rcases List.mem_append.mp hn' with hmem | hmem
        · exact hids n' hmem
        · simp only [List.mem_singleton] at hmem
          subst hmem
          exact ⟨rfl, by simpa using hv⟩
    · -- edge (from, to) pairs stay pairwise distinct
      simp only [updateGraphStep, if_pos hv]
      cases hprev : st.prevNode with
      | none => exact hedges
      | some prevId =>
        have key : ∀ t : String,
            (((match st.edges.find? (fun element => element.from_ == prevId &&
                element.to_ == t) with
              | some _ => incFirstEdge st.edges prevId t
              | none => st.edges ++ [{ from_ := prevId, to_ := t, value := 1 }] :
                List Edge)).map
                (fun e => (e.from_, e.to_))).Nodup := by
          intro t
          cases hef : st.edges.find? (fun element => element.from_ == prevId &&
              element.to_ == t) with
          | some e =>
            simpa [incFirstEdge_map_pair] using hedges
          | none =>
            have hfresh : ∀ e ∈ st.edges, ¬ (e.from_ = prevId ∧ e.to_ = t) := by
              intro e he
              simpa [Bool.and_eq_true] using List.find?_eq_none.mp hef e he
            simp only [List.map_append, List.map_cons, List.map_nil]
            rw [List.nodup_append]
            refine ⟨hedges, List.nodup_singleton _, ?_⟩
            intro a ha hb
            obtain ⟨e, he, rfl⟩ := List.mem_map.mp ha
            simp only [List.mem_singleton] at hb
            have h1 : e.from_ = prevId := congrArg Prod.fst hb
            have h2 : e.to_ = t := congrArg Prod.snd hb
            exact hfresh e he ⟨h1, h2⟩
        exact key _
  · push_neg at hv
    subst hv
    exact ⟨hnodes, hids, hedges⟩

theorem foldl_inv (values : List String) :
    ∀ st : BuildState, BuildInv st → BuildInv (values.foldl updateGraphStep st) := by
  induction values with
  | nil => intro st h; exact h
  | cons v rest ih =>
    intro st h
    exact ih (updateGraphStep st v) (updateGraphStep_inv st v h)

theorem updateGraph_inv (values : List String) :
    BuildInv ⟨(updateGraph values).nodes, (updateGraph values).edges, none⟩ := by
  have h := foldl_inv values ⟨[], [], none⟩
    ⟨by simp, by intro n hn; exact absurd hn (List.not_mem_nil n), by simp⟩
  exact ⟨h.1, h.2.1, h.2.2⟩

/-- C9: after processing every prefix of the observation list, the built model holds
exactly one State per distinct id and at most one Transition per ordered (from, to)
pair; re-observing an already-seen value (or consecutive pair) leaves the id list
(or pair list) unchanged — the existing entry is incremented, no duplicate is
created. -/
theorem one_state_per_id_one_transition_per_pair :
    (∀ (values : List String) (k : ℕ),
      ((updateGraph (values.take k)).nodes.map Node.id).Nodup ∧
      ((updateGraph (values.take k)).edges.map (fun e => (e.from_, e.to_))).Nodup) ∧
    (∀ (st : BuildState) (v : String) (node : Node), v ≠ "" →
      st.nodes.find? (fun element => element.label == v) = some node →
      (updateGraphStep st v).nodes.map Node.id = st.nodes.map Node.id) ∧
    (∀ (st : BuildState) (v : String) (node : Node) (e : Edge) (prevId : String),
      v ≠ "" → st.prevNode = some prevId →
      st.nodes.find? (fun element => element.label == v) = some node →
      st.edges.find? (fun element => element.from_ == prevId &&
        element.to_ == node.id) = some e →
      (updateGraphStep st v).edges.map (fun e' => (e'.from_, e'.to_)) =
        st.edges.map (fun e' => (e'.from_, e'.to_))) := by
  refine ⟨?_, ?_, ?_⟩
  · intro values k
    have hinv := updateGraph_inv (values.take k)
    refine ⟨?_, hinv.2.2⟩
    have hcongr : (updateGraph (values.take k)).nodes.map Node.id =
        (updateGraph (values.take k)).nodes.map Node.label :=
      List.map_congr_left (fun n hn => (hinv.2.1 n hn).1)
    rw [hcongr]
    exact hinv.1
  · intro st v node hv hfind
    simp only [updateGraphStep, if_pos hv, hfind]
    exact incFirstNodeByLabel_map_id st.nodes v
  · intro st v node e prevId hv hprev hfind hef
    simp only [updateGraphStep, if_pos hv, hfind, hprev, hef]
    exact incFirstEdge_map_pair st.edges prevId node.id

/-- C9 witness: re-observing "A" on a state that already has node A and self-loop
edge A→A leaves the id list and the (from, to) pair list unchanged. -/
theorem one_state_per_id_one_transition_per_pair_witness :
    (updateGraphStep ⟨[⟨"A", "A", 1⟩], [⟨"A", "A", 1⟩], some "A"⟩ "A").nodes.map Node.id =
      ([⟨"A", "A", 1⟩] : List Node).map Node.id ∧
    (updateGraphStep ⟨[⟨"A", "A", 1⟩], [⟨"A", "A", 1⟩], some "A"⟩ "A").edges.map
        (fun e' => (e'.from_, e'.to_)) =
      ([⟨"A", "A", 1⟩] : List Edge).map (fun e' => (e'.from_, e'.to_)) :=
  ⟨one_state_per_id_one_transition_per_pair.2.1
      ⟨[⟨"A", "A", 1⟩], [⟨"A", "A", 1⟩], some "A"⟩ "A" ⟨"A", "A", 1⟩ (by decide) rfl,
   one_state_per_id_one_transition_per_pair.2.2
      ⟨[⟨"A", "A", 1⟩], [⟨"A", "A", 1⟩], some "A"⟩ "A" ⟨"A", "A", 1⟩ ⟨"A", "A", 1⟩ "A"
      (by decide) rfl rfl rfl⟩

/-! ## Counting lemmas (C7) -/

theorem labelWeight_updateGraphStep (st : BuildState) (v s : String) (hs : s ≠ "") :
    labelWeight (updateGraphStep st v).nodes s =
      labelWeight st.nodes s + (if v = s then 1 else 0) := by
  by_cases hv : v ≠ ""
  · simp only [updateGraphStep, if_pos hv]
    cases hfind : st.nodes.find? (fun element => element.label == v) with
    | some node =>
      simp only [hfind]
      refine labelWeight_incFirst st.nodes v s
        ⟨node, List.mem_of_find?_eq_some hfind, ?_⟩
      simpa using List.find?_some hfind
    | none =>
      simp only [hfind]
      exact labelWeight_append_single st.nodes v s
  · push_neg at hv
    subst hv
    have hvs : ¬ ("" : String) = s := fun hc => hs hc.symm
    simp [updateGraphStep, if_neg hvs]

theorem labelWeight_foldl (values : List String) :
    ∀ (st : BuildState) (s : String), s ≠ "" →
      labelWeight (values.foldl updateGraphStep st).nodes s =
        labelWeight st.nodes s + (values.count s : ℚ) := by
  induction values with
  | nil => intro st s _; simp
  | cons v rest ih =>
    intro st s hs
    rw [List.foldl_cons, ih (updateGraphStep st v) s hs,
      labelWeight_updateGraphStep st v s hs, List.count_cons]
    by_cases h : v = s
    · simp [h]
      ring
    · have hbeq : (v == s) = false := by simpa using h
      simp [h, hbeq]

theorem edgeWeightSum_cons (e : Edge) (es : List Edge) :
    edgeWeightSum (e :: es) = e.value + edgeWeightSum es := by
  simp [edgeWeightSum]

theorem edgeWeightSum_incFirstEdge (edges : List Edge) (f t : String)
    (h : ∃ e ∈ edges, e.from_ = f ∧ e.to_ = t) :
    edgeWeightSum (incFirstEdge edges f t) = edgeWeightSum edges + 1 := by
  induction edges with
  | nil =>
    obtain ⟨e, he, _⟩ := h
    exact absurd he (List.not_mem_nil e)
  | cons e rest ih =>
    by_cases hcond : (e.from_ == f && e.to_ == t) = true
    · simp only [incFirstEdge, if_pos hcond]
      rw [edgeWeightSum_cons, edgeWeightSum_cons]
      show e.value + 1 + edgeWeightSum rest = e.value + edgeWeightSum rest + 1
      ring
    · simp only [incFirstEdge, if_neg hcond]
      rw [edgeWeightSum_cons, edgeWeightSum_cons]
      have h' : ∃ e' ∈ rest, e'.from_ = f ∧ e'.to_ = t := by
        obtain ⟨e', he', hf, ht⟩ := h
        cases List.mem_cons.mp he' with
        | inl heq => exact absurd (by subst heq; simp [hf, ht]) hcond
        | inr hr => exact ⟨e', hr, hf, ht⟩
      rw [ih h']
      ring

theorem edgeWeightSum_step_from_some (st : BuildState) (v p : String)
    (hv : v ≠ "") (hp : st.prevNode = some p) :
    edgeWeightSum (updateGraphStep st v).edges = edgeWeightSum st.edges + 1 := by
  simp only [updateGraphStep, if_pos hv, hp]
  have key : ∀ t : String,
      edgeWeightSum
        (match st.edges.find? (fun element => element.from_ == p &&
            element.to_ == t) with
          | some _ => incFirstEdge st.edges p t
          | none => st.edges ++ [{ from_ := p, to_ := t, value := 1 }] : List Edge) =
        edgeWeightSum st.edges + 1 := by
    intro t
    cases hef : st.edges.find? (fun element => element.from_ == p &&
        element.to_ == t) with
    | some e =>
      refine edgeWeightSum_incFirstEdge st.edges p t
        ⟨e, List.mem_of_find?_eq_some hef, ?_⟩
      simpa [Bool.and_eq_true] using List.find?_some hef
    | none =>
      simp [edgeWeightSum, List.map_append]
  exact key _

theorem updateGraphStep_prevNode_some (st : BuildState) (v : String) (hv : v ≠ "") :
    ∃ q, (updateGraphStep st v).prevNode = some q := by
  simp only [updateGraphStep, if_pos hv]
  exact ⟨_, rfl⟩

theorem updateGraphStep_edges_from_none (st : BuildState) (v : String)
    (hp : st.prevNode = none) :
    (updateGraphStep st v).edges = st.edges := by
  by_cases hv : v ≠ ""
  · simp only [updateGraphStep, if_pos hv, hp]
  · push_neg at hv
    subst hv
    rfl

theorem edgeWeightSum_foldl_from_some (values : List String) :
    ∀ (st : BuildState) (p : String), (∀ v ∈ values, v ≠ "") →
      st.prevNode = some p →
      edgeWeightSum (values.foldl updateGraphStep st).edges =
        edgeWeightSum st.edges + (values.length : ℚ) := by
  induction values with
  | nil => intro st p _ _; simp
  | cons v rest ih =>
    intro st p hall hp
    have hv : v ≠ "" := hall v (List.mem_cons_self v rest)
    rw [List.foldl_cons]
    obtain ⟨q, hq⟩ := updateGraphStep_prevNode_some st v hv
    rw [ih (updateGraphStep st v) q (fun w hw => hall w (List.mem_cons_of_mem v hw)) hq,
      edgeWeightSum_step_from_some st v p hv hp]
    simp only [List.length_cons]
    push_cast
    ring

theorem edgeWeightSum_foldl_from_none (values : List String) (st : BuildState)
    (hall : ∀ v ∈ values, v ≠ "") (hp : st.prevNode = none) (hne : values ≠ []) :
    edgeWeightSum (values.foldl updateGraphStep st).edges =
      edgeWeightSum st.edges + (values.length : ℚ) - 1 := by
  cases values with
  | nil => exact absurd rfl hne
  | cons v rest =>
    have hv : v ≠ "" := hall v (List.mem_cons_self v rest)
    rw [List.foldl_cons]
    obtain ⟨q, hq⟩ := updateGraphStep_prevNode_some st v hv
    rw [edgeWeightSum_foldl_from_some rest (updateGraphStep st v) q
        (fun w hw => hall w (List.mem_cons_of_mem v hw)) hq,
      updateGraphStep_edges_from_none st v hp]
    simp only [List.length_cons]
    push_cast
    ring

/-- C7: for every non-empty observation list with no separators, the transition
weights of the built model sum to `length − 1`, and no state's weight is below the
number of occurrences of its label in the input (in fact it equals it). -/
theorem no_separator_weight_counts (values : List String) (hne : values ≠ [])
    (hsep : ∀ v ∈ values, v ≠ "") :
    edgeWeightSum (updateGraph values).edges = (values.length : ℚ) - 1 ∧
    ∀ n ∈ (updateGraph values).nodes, (values.count n.label : ℚ) ≤ n.value := by
  constructor
  · show edgeWeightSum (values.foldl updateGraphStep ⟨[], [], none⟩).edges =
      (values.length : ℚ) - 1
    rw [edgeWeightSum_foldl_from_none values ⟨[], [], none⟩ hsep rfl hne]
    simp [edgeWeightSum]
  · intro n hn
    have hinv := updateGraph_inv values
    have hlabel : n.label ≠ "" := (hinv.2.1 n hn).2
    have hlw := labelWeight_foldl values ⟨[], [], none⟩ n.label hlabel
    have hinit : labelWeight ([] : List Node) n.label = 0 := rfl
    rw [hinit, zero_add] at hlw
    have heq : labelWeight (updateGraph values).nodes n.label = n.value :=
      labelWeight_of_nodup (updateGraph values).nodes n hinv.1 hn
    have : (values.count n.label : ℚ) = n.value := by
      rw [← heq]
      exact hlw.symm
    exact le_of_eq this

/-- C7 witness: for the separator-free input `["A","B","A"]` the transition weights
sum to 3 − 1. -/
theorem no_separator_weight_counts_witness :
    edgeWeightSum (updateGraph ["A", "B", "A"]).edges =
      ((["A", "B", "A"] : List String).length : ℚ) - 1 :=
  (no_separator_weight_counts ["A", "B", "A"] (by decide) (by decide)).1

end MarkovPlugin
